import Mathlib

/-!
# RabbitHole credential-protection pipeline: a shallow embedding

This file embeds the core of the RabbitHole secrets vault in Lean 4:

* `encryption/encrypt.py` — PBKDF2 key derivation (`deriveKey`), salt
  management (`getEncryptionKey`), AES-GCM encryption (`encryptApiKey`);
* `encryption/decrypt.py` — AES-GCM decryption (`decryptApiKey`);
* `storage/database.py` — the SQLite schema semantics (`storePasswordHash`,
  `getStoredPasswordHash`, `addApiKey`), bcrypt hashing (`hashPassword`);
* `auth/password.py` — `verifyPassword`, `authenticateUser`.

Bytes are `Nat`s below 256 (`List Nat` for byte strings); Python strings are
Lean `String`s; randomness (`os.urandom`, `bcrypt.gensalt`) is an explicit
random tape threaded through the functions that consume it; Python exceptions
are `Except` values, and a `try/except` that returns `None` becomes a match
producing `Option`.

External cryptographic primitives (the `cryptography` AESGCM class, PBKDF2,
and the `bcrypt` package) are not part of the repository; they are modelled
as ideal functionalities, each documented at its definition: AES-GCM as a
perfectly correct and perfectly authenticating AEAD, bcrypt as an injective
self-salting hash with a printable encoding, PBKDF2 as a deterministic
function of (password, salt, iterations, length) producing `length` bytes.
The glue code around them — base64 framing, UTF-8 boundaries, parameter
choices, error capture, schema constraints — is translated from the source.
-/

namespace RabbitHole

/-- A byte string: every element is a byte value. -/
def isBytes (l : List Nat) : Prop := ∀ b ∈ l, b < 256

instance (l : List Nat) : Decidable (isBytes l) := by
  unfold isBytes; infer_instance

/-! ## base64 (Python `base64.b64encode` / `base64.b64decode`)

The standard RFC 4648 alphabet with `=` padding, as used by
`base64.b64encode(...)`/`base64.b64decode(...)` in `encrypt.py` and
`decrypt.py`.  `b64decode` is modelled on its strict path: a malformed
input yields `none` (in Python, `binascii.Error`); `decryptApiKey`
catches either into the same `None` result. -/

/-- The 64-character base64 alphabet. -/
def b64Chars : List Char :=
  "ABCDEFGHIJKLMNOPQRSTUVWXYZabcdefghijklmnopqrstuvwxyz0123456789+/".data

/-- The character for a 6-bit group. -/
def b64Char (n : Nat) : Char := b64Chars.getD n 'A'

/-- The 6-bit value of an alphabet character, `none` if not in the alphabet. -/
def b64Val (c : Char) : Option Nat :=
  let i := b64Chars.indexOf c
  if i < 64 then some i else none

/-- Encode bytes three at a time into four base64 characters, padding the
final group with `=` as `b64encode` does. -/
def b64EncodeChunks : List Nat → List Char
  | [] => []
  | [a] => [b64Char (a / 4), b64Char (a % 4 * 16), '=', '=']
  | [a, b] => [b64Char (a / 4), b64Char (a % 4 * 16 + b / 16),
               b64Char (b % 16 * 4), '=']
  | a :: b :: c :: rest =>
      b64Char (a / 4) :: b64Char (a % 4 * 16 + b / 16) ::
      b64Char (b % 16 * 4 + c / 64) :: b64Char (c % 64) ::
      b64EncodeChunks rest

/-- `base64.b64encode(bs).decode()`: the base64 text of a byte string. -/
def b64encode (bs : List Nat) : String := String.mk (b64EncodeChunks bs)

/-- Decode base64 characters four at a time, accepting `=` padding only in
the final group; `none` on any malformed input. -/
def b64DecodeChunks : List Char → Option (List Nat)
  | [] => some []
  | c0 :: c1 :: c2 :: c3 :: rest =>
      match b64Val c0, b64Val c1 with
      | some v0, some v1 =>
          if c2 = '=' then
            if c3 = '=' ∧ rest = [] then some [v0 * 4 + v1 / 16] else none
          else
            match b64Val c2 with
            | some v2 =>
                if c3 = '=' then
                  if rest = [] then
                    some [v0 * 4 + v1 / 16, v1 % 16 * 16 + v2 / 4]
                  else none
                else
                  match b64Val c3 with
                  | some v3 =>
                      (b64DecodeChunks rest).map
                        (fun bs => (v0 * 4 + v1 / 16) :: (v1 % 16 * 16 + v2 / 4) ::
                                   (v2 % 4 * 64 + v3) :: bs)
                  | none => none
            | none => none
      | _, _ => none
  | _ => none

/-- `base64.b64decode(s)`: the bytes of a base64 text, `none` when malformed. -/
def b64decode (s : String) : Option (List Nat) := b64DecodeChunks s.data


/-! ## UTF-8 (Python `str.encode()` / `bytes.decode()`)

`apiKey.encode()` in `encryptApiKey` and `decrypted.decode()` in
`decryptApiKey` are UTF-8 conversions; the latter raises
`UnicodeDecodeError` on invalid byte sequences, modelled as `none`. -/

/-- The UTF-8 bytes of a Unicode scalar value. -/
def utf8EncodeChar (n : Nat) : List Nat :=
  if n < 0x80 then [n]
  else if n < 0x800 then [0xC0 + n / 64, 0x80 + n % 64]
  else if n < 0x10000 then
    [0xE0 + n / 4096, 0x80 + n / 64 % 64, 0x80 + n % 64]
  else
    [0xF0 + n / 262144, 0x80 + n / 4096 % 64, 0x80 + n / 64 % 64,
     0x80 + n % 64]

/-- `s.encode()`: the UTF-8 bytes of a Python string. -/
def strEncode (s : String) : List Nat :=
  s.data.flatMap (fun c => utf8EncodeChar c.toNat)

/-- Strict UTF-8 decoding of a byte list into characters, rejecting
truncated sequences, stray continuation bytes, overlong forms, surrogates
and out-of-range values; `none` models `UnicodeDecodeError`. -/
def utf8DecodeOne : List Nat → Option (Char × List Nat)
  | [] => none
  | b0 :: rest =>
    if b0 < 0x80 then some (Char.ofNat b0, rest)
    else if b0 < 0xC2 then none
    else if b0 < 0xE0 then
      match rest with
      | b1 :: r =>
        if 0x80 ≤ b1 ∧ b1 < 0xC0 then
          some (Char.ofNat ((b0 - 0xC0) * 64 + (b1 - 0x80)), r)
        else none
      | [] => none
    else if b0 < 0xF0 then
      match rest with
      | b1 :: b2 :: r =>
        if (0x80 ≤ b1 ∧ b1 < 0xC0) ∧ (0x80 ≤ b2 ∧ b2 < 0xC0) then
          let n := (b0 - 0xE0) * 4096 + (b1 - 0x80) * 64 + (b2 - 0x80)
          if 0x800 ≤ n ∧ (n < 0xD800 ∨ 0xDFFF < n) then some (Char.ofNat n, r)
          else none
        else none
      | _ => none
    else if b0 < 0xF5 then
      match rest with
      | b1 :: b2 :: b3 :: r =>
        if (0x80 ≤ b1 ∧ b1 < 0xC0) ∧ (0x80 ≤ b2 ∧ b2 < 0xC0) ∧
           (0x80 ≤ b3 ∧ b3 < 0xC0) then
          let n := (b0 - 0xF0) * 262144 + (b1 - 0x80) * 4096 +
                   (b2 - 0x80) * 64 + (b3 - 0x80)
          if 0x10000 ≤ n ∧ n < 0x110000 then some (Char.ofNat n, r)
          else none
        else none
      | _ => none
    else none

/-- Decode UTF-8 sequences until the byte list ends, with an explicit fuel
bound (the list length always suffices, one byte per step at least). -/
def utf8DecodeLoop : Nat → List Nat → Option (List Char)
  | _, [] => some []
  | 0, _ :: _ => none
  | fuel + 1, b0 :: rest =>
    match utf8DecodeOne (b0 :: rest) with
    | some (c, r) => (utf8DecodeLoop fuel r).map (fun cs => c :: cs)
    | none => none

/-- Decode a whole byte list to characters. -/
def utf8DecodeChars (l : List Nat) : Option (List Char) :=
  utf8DecodeLoop l.length l

/-- `bs.decode()`: UTF-8 decoding of bytes to a Python string. -/
def strDecode (bs : List Nat) : Option String :=
  (utf8DecodeChars bs).map String.mk

/-! ## Ideal AES-GCM (the external `cryptography` AESGCM class)

`AESGCM` is an external primitive, not repository code.  It is modelled as
an ideal authenticated cipher: the ciphertext is an (invertible) framing of
`(key, nonce, plaintext)` closed by a one-byte checksum standing in for the
16-byte GCM tag.  The model is perfectly correct (decryption under the
encrypting key and nonce returns the plaintext) and perfectly
authenticating (any other key, any other nonce, or any single-byte
corruption of the ciphertext is rejected) — the behaviour real AES-GCM has
except with negligible probability.  `AESGCM(key)` raises `ValueError`
unless the key is 16, 24 or 32 bytes, which `aesgcmNew` mirrors. -/

/-- Length-prefixed framing of one byte string (unary length, then `0`). -/
def encodeList (xs : List Nat) : List Nat :=
  List.replicate xs.length 1 ++ 0 :: xs

/-- Read a unary length header. -/
def decLen : List Nat → Option (Nat × List Nat)
  | [] => none
  | 0 :: rest => some (0, rest)
  | 1 :: rest => (decLen rest).map (fun p => (p.1 + 1, p.2))
  | _ => none

/-- Read one length-prefixed byte string, returning it and the remainder. -/
def decodeList (l : List Nat) : Option (List Nat × List Nat) :=
  match decLen l with
  | some (n, r) => if n ≤ r.length then some (r.take n, r.drop n) else none
  | none => none

/-- The framed body of an ideal AES-GCM ciphertext. -/
def encodeTriple (key nonce pt : List Nat) : List Nat :=
  encodeList key ++ encodeList nonce ++ encodeList pt

/-- Recover `(key, nonce, plaintext)` from a framed body. -/
def decodeTriple (l : List Nat) : Option (List Nat × List Nat × List Nat) :=
  match decodeList l with
  | some (k, r1) =>
    match decodeList r1 with
    | some (nn, r2) =>
      match decodeList r2 with
      | some (pt, r3) => if r3 = [] then some (k, nn, pt) else none
      | none => none
    | none => none
  | none => none

/-- `AESGCM(key).encrypt(nonce, pt, None)`: ideal AEAD — framed
`(key, nonce, pt)` closed with a checksum byte (the authentication tag). -/
def aesgcmEncrypt (key nonce pt : List Nat) : List Nat :=
  let body := encodeTriple key nonce pt
  body ++ [body.sum % 256]

/-- `AESGCM(key).decrypt(nonce, ct, None)`: verify the tag, recover the
triple, and release the plaintext only for the encrypting key and nonce;
`none` models `InvalidTag`. -/
def aesgcmDecrypt (key nonce ct : List Nat) : Option (List Nat) :=
  match ct.getLast? with
  | none => none
  | some tag =>
    let body := ct.dropLast
    if body.sum % 256 = tag then
      match decodeTriple body with
      | some (k, nn, pt) =>
          if k = key ∧ nn = nonce then some pt else none
      | none => none
    else none

/-- `AESGCM(key)`: the constructor checks the key length. -/
inductive PyError
  | valueError
  | binasciiError
  | invalidTag
  | unicodeDecodeError

def aesgcmNew (key : List Nat) : Except PyError (List Nat) :=
  if key.length = 16 ∨ key.length = 24 ∨ key.length = 32 then .ok key
  else .error .valueError

/-! ## Randomness (`os.urandom`, `bcrypt.gensalt`)

Randomness is an explicit tape of bytes with a read position; each consumer
advances the position.  Determinism of a modelled function in everything
but the tape is then a real statement, not an artifact. -/

structure RandState where
  tape : Nat → Nat
  pos : Nat

/-- `os.urandom(n)`: read `n` bytes from the tape. -/
def osUrandom (n : Nat) (r : RandState) : List Nat × RandState :=
  ((List.range n).map (fun i => r.tape (r.pos + i) % 256),
   ⟨r.tape, r.pos + n⟩)

/-! ## Key derivation (`encrypt.py`: `deriveKey`, `getEncryptionKey`) -/

/-- Ideal model of the external `PBKDF2HMAC(SHA256, length, salt,
iterations).derive(password)` primitive: a deterministic function of the
password, salt, iteration count and output length, producing exactly
`outLen` bytes.  The byte values are an arbitrary injective-style mix of
the inputs; only determinism, parameter dependence and output length are
relied on, matching what the repository relies on. -/
def pbkdf2HmacSha256 (password salt : List Nat) (iterations outLen : Nat) :
    List Nat :=
  (List.range outLen).map (fun i =>
    (password.foldl (fun a b => a * 257 + b + 1) 7 * 131 +
     salt.foldl (fun a b => a * 257 + b + 1) 11 * 137 +
     iterations * 139 + i * 149 + 17) % 256)

/-- `deriveKey(password, salt)`: PBKDF2-HMAC-SHA256, 32-byte output,
100000 iterations, over the UTF-8 bytes of the password (the source's
literal parameters).  The `try/except` returns `None` only if the
primitive itself throws, which it does not for these parameters. -/
def deriveKey (password : String) (salt : List Nat) : Option (List Nat) :=
  some (pbkdf2HmacSha256 (strEncode password) salt 100000 32)

/-- The salt file `config/salt.bin` as state: `none` when absent. -/
structure FileSystem where
  saltFile : Option (List Nat)

/-- `getEncryptionKey(password)`: generate and persist a fresh 16-byte salt
only when the salt file does not exist, otherwise read the existing salt;
then derive the key from it.  (The source's file-I/O error branches return
`None`; I/O is assumed to succeed in the model.) -/
def getEncryptionKey (password : String) (fs : FileSystem) (rng : RandState) :
    Option (List Nat) × FileSystem × RandState :=
  match fs.saltFile with
  | none =>
      let res := osUrandom 16 rng
      (deriveKey password res.1, ⟨some res.1⟩, res.2)
  | some salt => (deriveKey password salt, fs, rng)

/-! ## Secret encryption (`encrypt.py`: `encryptApiKey`;
`decrypt.py`: `decryptApiKey`) -/

/-- `encryptApiKey(apiKey, key)`: AES-GCM with a fresh 12-byte nonce, both
nonce and ciphertext base64-encoded; `(None, None)` when the primitive
throws (invalid key length). -/
def encryptApiKey (apiKey : String) (key : List Nat) (rng : RandState) :
    (Option String × Option String) × RandState :=
  match aesgcmNew key with
  | .ok _ =>
      let res := osUrandom 12 rng
      let ciphertext := aesgcmEncrypt key res.1 (strEncode apiKey)
      ((some (b64encode res.1), some (b64encode ciphertext)), res.2)
  | .error _ => ((none, none), rng)

/-- The body of `decryptApiKey`: each statement of the `try` block in
order, propagating the first exception raised — `ValueError` from
`AESGCM(key)`, `binascii.Error` from either `b64decode`, `InvalidTag` from
`aesgcm.decrypt`, `UnicodeDecodeError` from `decrypted.decode()`. -/
def decryptApiKeyRun (iv ciphertext : String) (key : List Nat) :
    Except PyError String :=
  match aesgcmNew key with
  | .error e => .error e
  | .ok _ =>
    match b64decode iv with
    | none => .error .binasciiError
    | some ivBytes =>
      match b64decode ciphertext with
      | none => .error .binasciiError
      | some ciphertextBytes =>
        match aesgcmDecrypt key ivBytes ciphertextBytes with
        | none => .error .invalidTag
        | some decrypted =>
          match strDecode decrypted with
          | none => .error .unicodeDecodeError
          | some apiKey => .ok apiKey

/-- `decryptApiKey(iv, ciphertext, key)`: the `try/except` catches every
exception of the body and returns `None`. -/
def decryptApiKey (iv ciphertext : String) (key : List Nat) : Option String :=
  match decryptApiKeyRun iv ciphertext key with
  | .ok s => some s
  | .error _ => none

/-! ## bcrypt (`storage/database.py`: `hashPassword`;
`auth/password.py`: `verifyPassword`)

The external `bcrypt` package is modelled as an ideal self-salting hash:
`hashpw(password, salt)` is an invertible printable framing of the pair
(real bcrypt hashes are printable `$2b$...` strings carrying their salt),
and `checkpw` re-hashes the candidate with the embedded salt and compares,
exactly as the real `checkpw` does.  Ideal collision-freedom replaces
computational collision resistance. -/

/-- A byte as two printable (ASCII, hence UTF-8-safe) hex-like values. -/
def hexPair (b : Nat) : List Nat := [48 + b / 16, 48 + b % 16]

/-- Printable framing of a byte string. -/
def toHexBytes (l : List Nat) : List Nat := l.flatMap hexPair

/-- Invert `toHexBytes`. -/
def fromHexBytes : List Nat → Option (List Nat)
  | [] => some []
  | h :: lo :: rest =>
      if 48 ≤ h ∧ h < 64 ∧ 48 ≤ lo ∧ lo < 64 then
        (fromHexBytes rest).map (fun bs => ((h - 48) * 16 + (lo - 48)) :: bs)
      else none
  | _ => none

/-- `bcrypt.hashpw(password, salt)`: framed `(password, salt)` in printable
bytes. -/
def bcryptHashpw (password salt : List Nat) : List Nat :=
  toHexBytes (encodeList password ++ encodeList salt)

/-- `bcrypt.checkpw(password, hash)`: extract the salt embedded in the
hash, re-hash the candidate with it and compare. -/
def bcryptCheckpw (password hash : List Nat) : Bool :=
  match fromHexBytes hash with
  | some body =>
      match decodeList body with
      | some (_, rest) =>
          match decodeList rest with
          | some (salt, rest2) =>
              rest2 = [] && hash = bcryptHashpw password salt
          | none => false
      | none => false
  | none => false

/-- `bcrypt.gensalt()`: a fresh random 16-byte salt. -/
def gensalt (rng : RandState) : List Nat × RandState := osUrandom 16 rng

/-- `hashPassword(password)` from `storage/database.py`: bcrypt with a
fresh random salt over the UTF-8 bytes of the password. -/
def hashPassword (password : String) (rng : RandState) :
    List Nat × RandState :=
  let res := gensalt rng
  (bcryptHashpw (strEncode password) res.1, res.2)

/-- `verifyPassword(storedHash, password)` from `auth/password.py`. -/
def verifyPassword (storedHash : List Nat) (password : String) : Bool :=
  bcryptCheckpw (strEncode password) storedHash

/-! ## The vault database (`storage/database.py`)

The SQLCipher database reduced to its schema semantics: `api_keys` rows
`(label, iv, ciphertext)` where `label` is declared `UNIQUE NOT NULL`, and
`users` rows holding `password_hash TEXT NOT NULL` with **no** uniqueness
constraint of any kind. -/

structure Database where
  users : List String
  apiKeys : List (String × String × String)

/-- `initializeDatabase`: a fresh database has empty tables. -/
def initializeDatabase : Database := ⟨[], []⟩

/-- `storePasswordHash(conn, hashedPassword)`: decode the hash as UTF-8 and
`INSERT INTO users (password_hash) VALUES (?)`.  The `users` table has no
uniqueness constraint, so the insert itself never raises
`sqlite.IntegrityError`; the only modelled failure is `UnicodeDecodeError`
from `.decode('utf-8')`. -/
def storePasswordHash (db : Database) (hashedPassword : List Nat) :
    Bool × Database :=
  match strDecode hashedPassword with
  | some decodedHash => (true, ⟨db.users ++ [decodedHash], db.apiKeys⟩)
  | none => (false, db)

/-- `getStoredPasswordHash(conn)`: `SELECT password_hash FROM users LIMIT
1`, re-encoded to bytes; `None` when the table is empty. -/
def getStoredPasswordHash (db : Database) : Option (List Nat) :=
  match db.users.head? with
  | some row => some (strEncode row)
  | none => none

/-- `addApiKey(conn, label, iv, ciphertext)`: `INSERT INTO api_keys` —
the `UNIQUE` constraint on `label` raises `sqlite.IntegrityError` for a
duplicate, which the source catches and turns into `False`. -/
def addApiKey (db : Database) (label iv ciphertext : String) :
    Bool × Database :=
  if db.apiKeys.any (fun row => row.1 == label) then
    (false, db)
  else
    (true, ⟨db.users, db.apiKeys ++ [(label, iv, ciphertext)]⟩)

/-! ## Authentication (`auth/password.py`: `authenticateUser`)

The password comes from a `getpass` prompt, modelled as an argument.  The
source returns `False` in two distinct ways: an error-level log when no
hash is stored (the vault was never initialised) and a warning-level log
when the candidate merely mismatches; the log stream is part of the
result. -/

inductive LogLevel
  | info
  | warning
  | error
deriving DecidableEq

/-- `authenticateUser(conn)` with the prompted password made explicit:
returns the success flag together with the log record it emits. -/
def authenticateUser (db : Database) (password : String) :
    Bool × LogLevel × String :=
  match getStoredPasswordHash db with
  | none => (false, LogLevel.error, "No stored password hash found.")
  | some storedHash =>
      if verifyPassword storedHash password then
        (true, LogLevel.info, "User authenticated successfully.")
      else
        (false, LogLevel.warning, "User failed to authenticate.")
/-! ### base64 round trip -/

theorem b64Val_b64Char : ∀ n < 64, b64Val (b64Char n) = some n := by decide

theorem b64Char_ne_eq : ∀ n < 64, b64Char n ≠ '=' := by decide

theorem b64DecodeChunks_chunk (a b c : Nat) (rest : List Nat)
    (ha : a < 256) (hb : b < 256) (hc : c < 256) :
    b64DecodeChunks (b64EncodeChunks (a :: b :: c :: rest)) =
      (b64DecodeChunks (b64EncodeChunks rest)).map (fun bs => a :: b :: c :: bs) := by
  have h0 : a / 4 < 64 := by omega
  have h1 : a % 4 * 16 + b / 16 < 64 := by omega
  have h2 : b % 16 * 4 + c / 64 < 64 := by omega
  have h3 : c % 64 < 64 := by omega
  rw [show b64EncodeChunks (a :: b :: c :: rest) =
      b64Char (a / 4) :: b64Char (a % 4 * 16 + b / 16) ::
      b64Char (b % 16 * 4 + c / 64) :: b64Char (c % 64) ::
      b64EncodeChunks rest from rfl]
  rw [b64DecodeChunks]
  rw [b64Val_b64Char _ h0, b64Val_b64Char _ h1, b64Val_b64Char _ h2,
      b64Val_b64Char _ h3]
  simp only [b64Char_ne_eq _ h2, if_false, b64Char_ne_eq _ h3]
  have e0 : a / 4 * 4 + (a % 4 * 16 + b / 16) / 16 = a := by omega
  have e1 : (a % 4 * 16 + b / 16) % 16 * 16 + (b % 16 * 4 + c / 64) / 4 = b := by
    omega
  have e2 : (b % 16 * 4 + c / 64) % 4 * 64 + c % 64 = c := by omega
  simp [e0, e1, e2]

/-- base64 round trip: decoding the encoding of any byte string gives it back. -/
theorem b64decode_b64encode (bs : List Nat) (hbs : isBytes bs) :
    b64decode (b64encode bs) = some bs := by
  rw [b64decode, b64encode]
  show b64DecodeChunks (b64EncodeChunks bs) = some bs
  induction bs using b64EncodeChunks.induct with
  | case1 => rfl
  | case2 a =>
      have ha : a < 256 := hbs a (by simp)
      have h0 : a / 4 < 64 := by omega
      have h1 : a % 4 * 16 < 64 := by omega
      rw [show b64EncodeChunks [a] =
          [b64Char (a / 4), b64Char (a % 4 * 16), '=', '='] from rfl]
      rw [b64DecodeChunks]
      rw [b64Val_b64Char _ h0, b64Val_b64Char _ h1]
      have e0 : a / 4 * 4 + a % 4 * 16 / 16 = a := by omega
      simp [e0]
      omega
  | case3 a b =>
      have ha : a < 256 := hbs a (by simp)
      have hb : b < 256 := hbs b (by simp)
      have h0 : a / 4 < 64 := by omega
      have h1 : a % 4 * 16 + b / 16 < 64 := by omega
      have h2 : b % 16 * 4 < 64 := by omega
      rw [show b64EncodeChunks [a, b] =
          [b64Char (a / 4), b64Char (a % 4 * 16 + b / 16),
           b64Char (b % 16 * 4), '='] from rfl]
      rw [b64DecodeChunks]
      rw [b64Val_b64Char _ h0, b64Val_b64Char _ h1, b64Val_b64Char _ h2]
      simp only [b64Char_ne_eq _ h2, if_false]
      have e0 : a / 4 * 4 + (a % 4 * 16 + b / 16) / 16 = a := by omega
      have e1 : (a % 4 * 16 + b / 16) % 16 * 16 + b % 16 * 4 / 4 = b := by omega
      simp [e0, e1]
      omega
  | case4 a b c rest ih =>
      have ha : a < 256 := hbs a (by simp)
      have hb : b < 256 := hbs b (by simp)
      have hc : c < 256 := hbs c (by simp)
      have hrest : isBytes rest := fun x hx => hbs x (by simp [hx])
      rw [b64DecodeChunks_chunk a b c rest ha hb hc, ih hrest]
      rfl

/-! ### UTF-8 round trip -/

theorem char_toNat_valid (c : Char) :
    c.toNat < 0xd800 ∨ (0xdfff < c.toNat ∧ c.toNat < 0x110000) := by
  rcases c.valid with h | ⟨h1, h2⟩
  · exact Or.inl (UInt32.toNat_lt_of_lt (by decide) h)
  · exact Or.inr ⟨UInt32.lt_toNat_of_lt (by decide) h1,
      UInt32.toNat_lt_of_lt (by decide) h2⟩

/-- Encoded characters are bytes. -/
theorem utf8EncodeChar_isBytes (n : Nat) (hn : n < 0x110000) :
    isBytes (utf8EncodeChar n) := by
  unfold utf8EncodeChar
  split
  · intro b hb
    simp only [List.mem_cons, List.not_mem_nil, or_false] at hb
    omega
  · split
    · intro b hb
      simp only [List.mem_cons, List.not_mem_nil, or_false] at hb
      rcases hb with h | h <;> omega
    · split
      · intro b hb
        simp only [List.mem_cons, List.not_mem_nil, or_false] at hb
        rcases hb with h | h | h <;> omega
      · intro b hb
        simp only [List.mem_cons, List.not_mem_nil, or_false] at hb
        rcases hb with h | h | h | h <;> omega

theorem utf8DecodeOne_encodeChar (c : Char) (rest : List Nat) :
    utf8DecodeOne (utf8EncodeChar c.toNat ++ rest) = some (c, rest) := by
  have hv := char_toNat_valid c
  set n := c.toNat with hn
  by_cases h1 : n < 0x80
  · rw [show utf8EncodeChar n = [n] from by unfold utf8EncodeChar; rw [if_pos h1]]
    rw [show ([n] ++ rest : List Nat) = n :: rest from rfl]
    unfold utf8DecodeOne
    dsimp only
    rw [if_pos h1, hn, Char.ofNat_toNat]
  · by_cases h2 : n < 0x800
    · rw [show utf8EncodeChar n = [0xC0 + n / 64, 0x80 + n % 64] from by
        unfold utf8EncodeChar; rw [if_neg h1, if_pos h2]]
      rw [show ([0xC0 + n / 64, 0x80 + n % 64] ++ rest : List Nat) =
        (0xC0 + n / 64) :: (0x80 + n % 64) :: rest from rfl]
      unfold utf8DecodeOne
      dsimp only
      rw [if_neg (by omega), if_neg (by omega), if_pos (by omega)]
      rw [if_pos (by omega)]
      rw [show (0xC0 + n / 64 - 0xC0) * 64 + (0x80 + n % 64 - 0x80) = n from by
        omega]
      rw [hn, Char.ofNat_toNat]
    · by_cases h3 : n < 0x10000
      · rw [show utf8EncodeChar n =
          [0xE0 + n / 4096, 0x80 + n / 64 % 64, 0x80 + n % 64] from by
          unfold utf8EncodeChar; rw [if_neg h1, if_neg h2, if_pos h3]]
        rw [show ([0xE0 + n / 4096, 0x80 + n / 64 % 64, 0x80 + n % 64] ++ rest :
          List Nat) = (0xE0 + n / 4096) :: (0x80 + n / 64 % 64) ::
          (0x80 + n % 64) :: rest from rfl]
        unfold utf8DecodeOne
        dsimp only
        rw [if_neg (by omega), if_neg (by omega), if_neg (by omega),
            if_pos (by omega)]
        rw [if_pos (by omega)]
        rw [show (0xE0 + n / 4096 - 0xE0) * 4096 + (0x80 + n / 64 % 64 - 0x80) *
          64 + (0x80 + n % 64 - 0x80) = n from by omega]
        rw [if_pos (by omega)]
        rw [hn, Char.ofNat_toNat]
      · have h4 : n < 0x110000 := by omega
        rw [show utf8EncodeChar n = [0xF0 + n / 262144, 0x80 + n / 4096 % 64,
          0x80 + n / 64 % 64, 0x80 + n % 64] from by
          unfold utf8EncodeChar; rw [if_neg h1, if_neg h2, if_neg h3]]
        rw [show ([0xF0 + n / 262144, 0x80 + n / 4096 % 64, 0x80 + n / 64 % 64,
          0x80 + n % 64] ++ rest : List Nat) = (0xF0 + n / 262144) ::
          (0x80 + n / 4096 % 64) :: (0x80 + n / 64 % 64) ::
          (0x80 + n % 64) :: rest from rfl]
        unfold utf8DecodeOne
        dsimp only
        rw [if_neg (by omega), if_neg (by omega), if_neg (by omega),
            if_neg (by omega), if_pos (by omega)]
        rw [if_pos (by omega)]
        rw [show (0xF0 + n / 262144 - 0xF0) * 262144 +
          (0x80 + n / 4096 % 64 - 0x80) * 4096 + (0x80 + n / 64 % 64 - 0x80) *
          64 + (0x80 + n % 64 - 0x80) = n from by omega]
        rw [if_pos (by omega)]
        rw [hn, Char.ofNat_toNat]

theorem utf8EncodeChar_exists_cons (n : Nat) :
    ∃ e es, utf8EncodeChar n = e :: es := by
  unfold utf8EncodeChar
  split
  · exact ⟨_, _, rfl⟩
  · split
    · exact ⟨_, _, rfl⟩
    · split
      · exact ⟨_, _, rfl⟩
      · exact ⟨_, _, rfl⟩

theorem utf8DecodeLoop_flatMap (cs : List Char) :
    ∀ fuel, cs.length ≤ fuel →
      utf8DecodeLoop fuel (cs.flatMap (fun c => utf8EncodeChar c.toNat)) =
        some cs := by
  induction cs with
  | nil => intro fuel _; cases fuel <;> rfl
  | cons c cs ih =>
    intro fuel hfuel
    cases fuel with
    | zero => simp at hfuel
    | succ fuel =>
      rw [List.flatMap_cons]
      obtain ⟨e, es, he⟩ := utf8EncodeChar_exists_cons c.toNat
      rw [he, List.cons_append, utf8DecodeLoop, ← List.cons_append, ← he,
          utf8DecodeOne_encodeChar]
      dsimp only
      rw [ih fuel (by simpa using hfuel)]
      rfl

/-- UTF-8 round trip: decoding the encoding of any string gives it back. -/
theorem strDecode_strEncode (s : String) : strDecode (strEncode s) = some s := by
  have hlen : ∀ cs : List Char,
      cs.length ≤ (cs.flatMap (fun c => utf8EncodeChar c.toNat)).length := by
    intro cs
    induction cs with
    | nil => simp
    | cons c cs ih =>
      rw [List.flatMap_cons, List.length_append, List.length_cons]
      obtain ⟨e, es, he⟩ := utf8EncodeChar_exists_cons c.toNat
      rw [he, List.length_cons]
      omega
  rw [strDecode, strEncode, utf8DecodeChars]
  rw [utf8DecodeLoop_flatMap s.data _ (hlen s.data)]
  rfl

/-- Encoded strings are bytes. -/
theorem strEncode_isBytes (s : String) : isBytes (strEncode s) := by
  intro b hb
  rw [strEncode, List.mem_flatMap] at hb
  obtain ⟨c, _, hc⟩ := hb
  have hv := char_toNat_valid c
  exact utf8EncodeChar_isBytes c.toNat (by omega) b hc

/-- UTF-8 encoding is injective (from the round trip). -/
theorem strEncode_injective {s t : String} (h : strEncode s = strEncode t) :
    s = t := by
  have hs := strDecode_strEncode s
  have ht := strDecode_strEncode t
  rw [h, ht] at hs
  exact ((Option.some.injEq t s).mp hs).symm

/-! ### Framing round trip -/

theorem decLen_replicate (L : Nat) (rest : List Nat) :
    decLen (List.replicate L 1 ++ 0 :: rest) = some (L, rest) := by
  induction L with
  | zero => rfl
  | succ L ih =>
      rw [List.replicate_succ, List.cons_append, decLen, ih]
      rfl

theorem decodeList_encodeList (xs rest : List Nat) :
    decodeList (encodeList xs ++ rest) = some (xs, rest) := by
  rw [encodeList, List.append_assoc, List.cons_append, decodeList,
      decLen_replicate]
  dsimp only
  rw [if_pos (by simp), List.take_left, List.drop_left]

theorem decodeTriple_encodeTriple (key nonce pt : List Nat) :
    decodeTriple (encodeTriple key nonce pt) = some (key, nonce, pt) := by
  rw [encodeTriple, decodeTriple, List.append_assoc, decodeList_encodeList]
  dsimp only
  rw [decodeList_encodeList]
  dsimp only
  rw [show encodeList pt = encodeList pt ++ [] from (List.append_nil _).symm,
      decodeList_encodeList]
  rfl

theorem encodeList_isBytes {xs : List Nat} (h : isBytes xs) :
    isBytes (encodeList xs) := by
  intro b hb
  rw [encodeList, List.mem_append, List.mem_cons] at hb
  rcases hb with hb | hb | hb
  · have := List.eq_of_mem_replicate hb; omega
  · omega
  · exact h b hb

theorem encodeTriple_isBytes {key nonce pt : List Nat} (hk : isBytes key)
    (hn : isBytes nonce) (hp : isBytes pt) : isBytes (encodeTriple key nonce pt) := by
  intro b hb
  rw [encodeTriple, List.mem_append, List.mem_append] at hb
  rcases hb with (hb | hb) | hb
  · exact encodeList_isBytes hk b hb
  · exact encodeList_isBytes hn b hb
  · exact encodeList_isBytes hp b hb

theorem aesgcmEncrypt_isBytes {key nonce pt : List Nat} (hk : isBytes key)
    (hn : isBytes nonce) (hp : isBytes pt) :
    isBytes (aesgcmEncrypt key nonce pt) := by
  intro b hb
  rw [aesgcmEncrypt, List.mem_append, List.mem_cons] at hb
  rcases hb with hb | hb | hb
  · exact encodeTriple_isBytes hk hn hp b hb
  · omega
  · simp at hb

/-! ### Ideal AEAD properties -/

/-- Decryption under the encrypting key and nonce recovers the plaintext. -/
theorem aesgcmDecrypt_aesgcmEncrypt (key nonce pt : List Nat) :
    aesgcmDecrypt key nonce (aesgcmEncrypt key nonce pt) = some pt := by
  rw [aesgcmEncrypt, aesgcmDecrypt]
  rw [List.getLast?_concat]
  dsimp only
  rw [List.dropLast_concat]
  rw [if_pos rfl, decodeTriple_encodeTriple]
  dsimp only
  rw [if_pos ⟨rfl, rfl⟩]

/-- Decryption under any other key is rejected. -/
theorem aesgcmDecrypt_wrong_key (key key2 nonce nonce2 pt : List Nat)
    (h : key2 ≠ key ∨ nonce2 ≠ nonce) :
    aesgcmDecrypt key2 nonce2 (aesgcmEncrypt key nonce pt) = none := by
  rw [aesgcmEncrypt, aesgcmDecrypt]
  rw [List.getLast?_concat]
  dsimp only
  rw [List.dropLast_concat]
  rw [if_pos rfl, decodeTriple_encodeTriple]
  dsimp only
  rw [if_neg (by tauto)]

/-- Sums under a single-position update. -/
theorem sum_set_add (l : List Nat) (i v : Nat) (h : i < l.length) :
    (l.set i v).sum + (l[i]?).getD 0 = l.sum + v := by
  induction l generalizing i with
  | nil => simp at h
  | cons a l ih =>
      cases i with
      | zero => simp [List.sum_cons]; omega
      | succ i =>
          rw [List.set_cons_succ, List.sum_cons, List.sum_cons,
              List.getElem?_cons_succ]
          have := ih i (by simpa using h)
          omega

/-- Corrupting any single byte of an ideal ciphertext makes decryption fail:
either the checksum byte itself changed, or the body sum moved by a nonzero
amount modulo 256. -/
theorem aesgcmDecrypt_corrupt (key nonce pt : List Nat) (i v : Nat)
    (hk : isBytes key) (hn : isBytes nonce) (hp : isBytes pt)
    (hi : i < (aesgcmEncrypt key nonce pt).length) (hv : v < 256)
    (hne : (aesgcmEncrypt key nonce pt)[i]? ≠ some v) :
    aesgcmDecrypt key nonce ((aesgcmEncrypt key nonce pt).set i v) = none := by
  have hbytes := encodeTriple_isBytes hk hn hp
  set body := encodeTriple key nonce pt with hbody
  rw [aesgcmEncrypt, ← hbody] at hi hne ⊢
  rw [List.length_append, List.length_cons] at hi
  simp only [List.length_nil] at hi
  by_cases hcase : i < body.length
  · rw [List.set_append_left _ _ hcase, aesgcmDecrypt, List.getLast?_concat]
    dsimp only
    rw [List.dropLast_concat]
    rw [List.getElem?_append_left hcase, List.getElem?_eq_getElem hcase] at hne
    have hold : body[i] < 256 := hbytes _ (List.getElem_mem hcase)
    have hsum := sum_set_add body i v hcase
    rw [List.getElem?_eq_getElem hcase, Option.getD_some] at hsum
    have hnev : body[i] ≠ v := fun hh => hne (congrArg some hh)
    rw [if_neg (by omega)]
  · have hieq : i = body.length := by omega
    rw [hieq, List.set_append_right _ _ (Nat.le_refl _), Nat.sub_self]
    rw [show ([body.sum % 256].set 0 v : List Nat) = [v] from rfl]
    rw [aesgcmDecrypt, List.getLast?_concat]
    dsimp only
    rw [List.dropLast_concat]
    rw [hieq, List.getElem?_append_right (Nat.le_refl _), Nat.sub_self] at hne
    have htag : body.sum % 256 ≠ v := fun hh => hne (by simp [hh])
    rw [if_neg htag]

theorem osUrandom_length (n : Nat) (r : RandState) :
    (osUrandom n r).1.length = n := by
  rw [osUrandom, List.length_map, List.length_range]

theorem osUrandom_isBytes (n : Nat) (r : RandState) :
    isBytes (osUrandom n r).1 := by
  intro b hb
  rw [osUrandom, List.mem_map] at hb
  obtain ⟨i, _, hi⟩ := hb
  omega

/-! ## bcrypt model properties -/

theorem fromHexBytes_toHexBytes (l : List Nat) (h : isBytes l) :
    fromHexBytes (toHexBytes l) = some l := by
  induction l with
  | nil => rfl
  | cons b bs ih =>
      have hb : b < 256 := h b (by simp)
      have hbs : isBytes bs := fun x hx => h x (by simp [hx])
      rw [toHexBytes, List.flatMap_cons]
      rw [show hexPair b ++ bs.flatMap hexPair =
        (48 + b / 16) :: (48 + b % 16) :: bs.flatMap hexPair from rfl]
      rw [fromHexBytes]
      rw [if_pos (by omega)]
      rw [show bs.flatMap hexPair = toHexBytes bs from rfl, ih hbs]
      rw [show (48 + b / 16 - 48) * 16 + (48 + b % 16 - 48) = b from by omega]
      rfl

theorem toHexBytes_injective {a b : List Nat} (ha : isBytes a) (hb : isBytes b)
    (h : toHexBytes a = toHexBytes b) : a = b := by
  have h1 := fromHexBytes_toHexBytes a ha
  have h2 := fromHexBytes_toHexBytes b hb
  rw [h, h2] at h1
  exact ((Option.some.injEq b a).mp h1).symm

theorem encodeList_append_injective {p1 p2 s1 s2 : List Nat}
    (h : encodeList p1 ++ encodeList s1 = encodeList p2 ++ encodeList s2) :
    p1 = p2 ∧ s1 = s2 := by
  have h1 := decodeList_encodeList p1 (encodeList s1)
  have h2 := decodeList_encodeList p2 (encodeList s2)
  rw [h, h2] at h1
  simp only [Option.some.injEq, Prod.mk.injEq] at h1
  obtain ⟨hp, hs⟩ := h1
  refine ⟨hp.symm, ?_⟩
  have g1 := decodeList_encodeList s1 []
  have g2 := decodeList_encodeList s2 []
  rw [List.append_nil] at g1 g2
  rw [← hs, g2] at g1
  simp only [Option.some.injEq, Prod.mk.injEq] at g1
  exact g1.1.symm

/-- `checkpw` accepts the hashed password. -/
theorem bcryptCheckpw_hashpw (password salt : List Nat)
    (hp : isBytes password) (hs : isBytes salt) :
    bcryptCheckpw password (bcryptHashpw password salt) = true := by
  have hbody : isBytes (encodeList password ++ encodeList salt) := by
    intro b hb
    rw [List.mem_append] at hb
    rcases hb with hb | hb
    · exact encodeList_isBytes hp b hb
    · exact encodeList_isBytes hs b hb
  rw [bcryptCheckpw, bcryptHashpw, fromHexBytes_toHexBytes _ hbody]
  dsimp only
  rw [decodeList_encodeList]
  dsimp only
  rw [show encodeList salt = encodeList salt ++ [] from
    (List.append_nil _).symm, decodeList_encodeList]
  simp [bcryptHashpw]

/-- `checkpw` rejects any other password. -/
theorem bcryptCheckpw_hashpw_ne (password candidate salt : List Nat)
    (hp : isBytes password) (hc : isBytes candidate) (hs : isBytes salt)
    (hne : candidate ≠ password) :
    bcryptCheckpw candidate (bcryptHashpw password salt) = false := by
  have hbody : isBytes (encodeList password ++ encodeList salt) := by
    intro b hb
    rw [List.mem_append] at hb
    rcases hb with hb | hb
    · exact encodeList_isBytes hp b hb
    · exact encodeList_isBytes hs b hb
  have hbody2 : isBytes (encodeList candidate ++ encodeList salt) := by
    intro b hb
    rw [List.mem_append] at hb
    rcases hb with hb | hb
    · exact encodeList_isBytes hc b hb
    · exact encodeList_isBytes hs b hb
  rw [bcryptCheckpw, bcryptHashpw, fromHexBytes_toHexBytes _ hbody]
  dsimp only
  rw [decodeList_encodeList]
  dsimp only
  rw [show encodeList salt = encodeList salt ++ [] from
    (List.append_nil _).symm, decodeList_encodeList]
  dsimp only
  rw [show bcryptHashpw candidate salt = toHexBytes (encodeList candidate ++
    encodeList salt) from rfl]
  have hnehash : toHexBytes (encodeList password ++ encodeList salt) ≠
      toHexBytes (encodeList candidate ++ encodeList salt) := by
    intro hh
    have := encodeList_append_injective (toHexBytes_injective hbody hbody2 hh)
    exact hne this.1.symm
  simp [bcryptHashpw, toHexBytes] at hnehash ⊢
  exact fun hh => absurd hh hnehash

/-- Distinct salts give distinct hash encodings. -/
theorem bcryptHashpw_salt_injective {password s1 s2 : List Nat}
    (hp : isBytes password) (h1 : isBytes s1) (h2 : isBytes s2)
    (hne : s1 ≠ s2) : bcryptHashpw password s1 ≠ bcryptHashpw password s2 := by
  intro hh
  have hb1 : isBytes (encodeList password ++ encodeList s1) := by
    intro b hb
    rw [List.mem_append] at hb
    rcases hb with hb | hb
    · exact encodeList_isBytes hp b hb
    · exact encodeList_isBytes h1 b hb
  have hb2 : isBytes (encodeList password ++ encodeList s2) := by
    intro b hb
    rw [List.mem_append] at hb
    rcases hb with hb | hb
    · exact encodeList_isBytes hp b hb
    · exact encodeList_isBytes h2 b hb
  have := encodeList_append_injective (toHexBytes_injective hb1 hb2 hh)
  exact hne this.2

/-! ## Password-gate helper lemmas -/

/-- `verifyPassword` accepts the password `hashPassword` hashed. -/
theorem verifyPassword_hashPassword_self (p : String) (rng : RandState) :
    verifyPassword (hashPassword p rng).1 p = true := by
  rw [hashPassword, verifyPassword]
  dsimp only
  exact bcryptCheckpw_hashpw _ _ (strEncode_isBytes p) (osUrandom_isBytes 16 rng)

/-- `verifyPassword` rejects every other password. -/
theorem verifyPassword_hashPassword_other (p p2 : String) (rng : RandState)
    (hne : p2 ≠ p) : verifyPassword (hashPassword p rng).1 p2 = false := by
  rw [hashPassword, verifyPassword]
  dsimp only
  refine bcryptCheckpw_hashpw_ne _ _ _ (strEncode_isBytes p)
    (strEncode_isBytes p2) (osUrandom_isBytes 16 rng) ?_
  exact fun hh => hne (strEncode_injective hh)

/-! ## The claims -/

/-- C1: for every plaintext string `m` and every 32-byte key `k`,
`decryptApiKey` applied (with the same key) to the base64-encoded
`(nonce, ciphertext)` pair produced by `encryptApiKey m k` returns exactly
`m` — encryption base64-encodes the fresh nonce and the ciphertext, and
decryption decodes them and recovers the plaintext. -/
theorem C1_encrypt_decrypt_roundtrip (m : String) (key : List Nat)
    (rng : RandState) (hk : key.length = 32) (hkb : isBytes key) :
    encryptApiKey m key rng =
      ((some (b64encode (osUrandom 12 rng).1),
        some (b64encode (aesgcmEncrypt key (osUrandom 12 rng).1 (strEncode m)))),
       (osUrandom 12 rng).2) ∧
    decryptApiKey (b64encode (osUrandom 12 rng).1)
      (b64encode (aesgcmEncrypt key (osUrandom 12 rng).1 (strEncode m))) key =
      some m := by
  have hnew : aesgcmNew key = Except.ok key := by
    rw [aesgcmNew, if_pos (by omega)]
  have hivb : isBytes (osUrandom 12 rng).1 := osUrandom_isBytes 12 rng
  constructor
  · rw [encryptApiKey, hnew]
  · rw [decryptApiKey, decryptApiKeyRun, hnew]
    dsimp only
    rw [b64decode_b64encode _ hivb]
    dsimp only
    rw [b64decode_b64encode _
      (aesgcmEncrypt_isBytes hkb hivb (strEncode_isBytes m))]
    dsimp only
    rw [aesgcmDecrypt_aesgcmEncrypt]
    dsimp only
    rw [strDecode_strEncode]

theorem C1_encrypt_decrypt_roundtrip_witness :
    encryptApiKey "sk-12345" (List.range 32) ⟨fun i => i * 7 + 3, 0⟩ =
      ((some (b64encode (osUrandom 12 ⟨fun i => i * 7 + 3, 0⟩).1),
        some (b64encode (aesgcmEncrypt (List.range 32)
          (osUrandom 12 ⟨fun i => i * 7 + 3, 0⟩).1 (strEncode "sk-12345")))),
       (osUrandom 12 ⟨fun i => i * 7 + 3, 0⟩).2) ∧
    decryptApiKey (b64encode (osUrandom 12 ⟨fun i => i * 7 + 3, 0⟩).1)
      (b64encode (aesgcmEncrypt (List.range 32)
        (osUrandom 12 ⟨fun i => i * 7 + 3, 0⟩).1 (strEncode "sk-12345")))
      (List.range 32) = some "sk-12345" :=
  C1_encrypt_decrypt_roundtrip "sk-12345" (List.range 32)
    ⟨fun i => i * 7 + 3, 0⟩ (by decide) (by decide)

/-- C2: decrypting the output of `encryptApiKey m k` under any key
`k2 ≠ k` yields `None` (the decryption-failure result), never a plaintext;
and decrypting after any single byte of the ciphertext has been corrupted
also yields `None` rather than a different plaintext. -/
theorem C2_wrong_key_and_corruption (m : String) (key key2 : List Nat)
    (rng : RandState) (hk : key.length = 32) (hkb : isBytes key) :
    (key2 ≠ key →
      decryptApiKey (b64encode (osUrandom 12 rng).1)
        (b64encode (aesgcmEncrypt key (osUrandom 12 rng).1 (strEncode m)))
        key2 = none) ∧
    (∀ i v, i < (aesgcmEncrypt key (osUrandom 12 rng).1 (strEncode m)).length →
      v < 256 →
      (aesgcmEncrypt key (osUrandom 12 rng).1 (strEncode m))[i]? ≠ some v →
      decryptApiKey (b64encode (osUrandom 12 rng).1)
        (b64encode ((aesgcmEncrypt key (osUrandom 12 rng).1
          (strEncode m)).set i v)) key = none) ∧
    encryptApiKey m key rng =
      ((some (b64encode (osUrandom 12 rng).1),
        some (b64encode (aesgcmEncrypt key (osUrandom 12 rng).1 (strEncode m)))),
       (osUrandom 12 rng).2) := by
  have hnew : aesgcmNew key = Except.ok key := by
    rw [aesgcmNew, if_pos (by omega)]
  have hivb : isBytes (osUrandom 12 rng).1 := osUrandom_isBytes 12 rng
  have hctb : isBytes (aesgcmEncrypt key (osUrandom 12 rng).1 (strEncode m)) :=
    aesgcmEncrypt_isBytes hkb hivb (strEncode_isBytes m)
  refine ⟨?_, ?_, ?_⟩
  · intro hne
    rw [decryptApiKey, decryptApiKeyRun]
    by_cases hlen : key2.length = 16 ∨ key2.length = 24 ∨ key2.length = 32
    · rw [aesgcmNew, if_pos hlen]
      dsimp only
      rw [b64decode_b64encode _ hivb]
      dsimp only
      rw [b64decode_b64encode _ hctb]
      dsimp only
      rw [aesgcmDecrypt_wrong_key key key2 _ _ (strEncode m) (Or.inl hne)]
    · rw [aesgcmNew, if_neg hlen]
  · intro i v hi hv hne
    have hsetb : isBytes ((aesgcmEncrypt key (osUrandom 12 rng).1
        (strEncode m)).set i v) := by
      intro b hb
      rcases List.mem_or_eq_of_mem_set hb with h | h
      · exact hctb b h
      · omega
    rw [decryptApiKey, decryptApiKeyRun, hnew]
    dsimp only
    rw [b64decode_b64encode _ hivb]
    dsimp only
    rw [b64decode_b64encode _ hsetb]
    dsimp only
    rw [aesgcmDecrypt_corrupt key _ (strEncode m) i v hkb hivb
      (strEncode_isBytes m) hi hv hne]
  · rw [encryptApiKey, hnew]

theorem C2_wrong_key_and_corruption_witness :
    decryptApiKey (b64encode (osUrandom 12 ⟨fun i => i, 0⟩).1)
      (b64encode (aesgcmEncrypt (List.range 32) (osUrandom 12 ⟨fun i => i, 0⟩).1
        (strEncode "s"))) (List.replicate 32 0) = none ∧
    decryptApiKey (b64encode (osUrandom 12 ⟨fun i => i, 0⟩).1)
      (b64encode ((aesgcmEncrypt (List.range 32) (osUrandom 12 ⟨fun i => i, 0⟩).1
        (strEncode "s")).set 0 0)) (List.range 32) = none :=
  ⟨(C2_wrong_key_and_corruption "s" (List.range 32) (List.replicate 32 0)
      ⟨fun i => i, 0⟩ (by decide) (by decide)).1 (by decide),
   (C2_wrong_key_and_corruption "s" (List.range 32) (List.replicate 32 0)
      ⟨fun i => i, 0⟩ (by decide) (by decide)).2.1 0 0 (by decide) (by decide)
      (by decide)⟩

/-- C3: `deriveKey` is deterministic — identical `(password, salt)` inputs
give the identical key — and the key is PBKDF2-HMAC-SHA256 with 100000
iterations and exactly 32 output bytes. -/
theorem C3_deriveKey_deterministic (p p2 : String) (s s2 : List Nat)
    (hp : p2 = p) (hs : s2 = s) :
    ∃ k, deriveKey p s = some k ∧ deriveKey p2 s2 = some k ∧
      k.length = 32 ∧ k = pbkdf2HmacSha256 (strEncode p) s 100000 32 := by
  refine ⟨pbkdf2HmacSha256 (strEncode p) s 100000 32, ?_, ?_, ?_, ?_⟩
  · rw [deriveKey]
  · rw [hp, hs, deriveKey]
  · rw [pbkdf2HmacSha256, List.length_map, List.length_range]
  · rfl

theorem C3_deriveKey_deterministic_witness :
    ∃ k, deriveKey "pw" (List.replicate 16 9) = some k ∧
      deriveKey "pw" (List.replicate 16 9) = some k ∧ k.length = 32 ∧
      k = pbkdf2HmacSha256 (strEncode "pw") (List.replicate 16 9) 100000 32 :=
  C3_deriveKey_deterministic "pw" "pw" (List.replicate 16 9)
    (List.replicate 16 9) rfl rfl

/-- C4: `getEncryptionKey` generates and persists a fresh 16-byte salt only
when no salt file exists; with a salt file present it reuses that salt
unchanged and leaves the file untouched, so every derivation against the
same vault uses the identical salt. -/
theorem C4_salt_persistence (p : String) (fs : FileSystem) (rng : RandState) :
    (∀ s, fs.saltFile = some s →
      getEncryptionKey p fs rng = (deriveKey p s, fs, rng)) ∧
    (fs.saltFile = none →
      getEncryptionKey p fs rng =
        (deriveKey p (osUrandom 16 rng).1, ⟨some (osUrandom 16 rng).1⟩,
         (osUrandom 16 rng).2) ∧
      (osUrandom 16 rng).1.length = 16) := by
  constructor
  · intro s hsf
    rw [getEncryptionKey, hsf]
  · intro hsf
    exact ⟨by rw [getEncryptionKey, hsf], osUrandom_length 16 rng⟩

theorem C4_salt_persistence_witness :
    getEncryptionKey "pw" ⟨some (List.replicate 16 7)⟩ ⟨fun i => i, 0⟩ =
      (deriveKey "pw" (List.replicate 16 7), ⟨some (List.replicate 16 7)⟩,
       ⟨fun i => i, 0⟩) ∧
    (getEncryptionKey "pw" ⟨none⟩ ⟨fun i => i, 0⟩ =
      (deriveKey "pw" (osUrandom 16 ⟨fun i => i, 0⟩).1,
       ⟨some (osUrandom 16 ⟨fun i => i, 0⟩).1⟩,
       (osUrandom 16 ⟨fun i => i, 0⟩).2) ∧
     (osUrandom 16 ⟨fun i => i, 0⟩).1.length = 16) :=
  ⟨(C4_salt_persistence "pw" ⟨some (List.replicate 16 7)⟩ ⟨fun i => i, 0⟩).1
     (List.replicate 16 7) rfl,
   (C4_salt_persistence "pw" ⟨none⟩ ⟨fun i => i, 0⟩).2 rfl⟩

/-- C5: for every password `p`, `verifyPassword (hashPassword p) p` is
true, and for every `p2 ≠ p`, `verifyPassword (hashPassword p) p2` is
false. -/
theorem C5_verify_hash (p p2 : String) (rng : RandState) :
    verifyPassword (hashPassword p rng).1 p = true ∧
    (p2 ≠ p → verifyPassword (hashPassword p rng).1 p2 = false) :=
  ⟨verifyPassword_hashPassword_self p rng,
   fun hne => verifyPassword_hashPassword_other p p2 rng hne⟩

theorem C5_verify_hash_witness :
    verifyPassword (hashPassword "Secr3t!" ⟨fun i => i, 0⟩).1 "Secr3t!" = true ∧
    verifyPassword (hashPassword "Secr3t!" ⟨fun i => i, 0⟩).1 "wrong" = false :=
  ⟨(C5_verify_hash "Secr3t!" "wrong" ⟨fun i => i, 0⟩).1,
   (C5_verify_hash "Secr3t!" "wrong" ⟨fun i => i, 0⟩).2 (by decide)⟩

/-- C6: with no stored PasswordHash, authentication fails with the fatal
missing-credential diagnostic (error level, vault uninitialised); a mere
verification mismatch fails with the recoverable warning-level diagnostic;
the two outcomes are distinct. -/
theorem C6_missing_vs_mismatch (db : Database) (p : String) :
    (getStoredPasswordHash db = none →
      authenticateUser db p =
        (false, LogLevel.error, "No stored password hash found.")) ∧
    (∀ storedHash, getStoredPasswordHash db = some storedHash →
      verifyPassword storedHash p = false →
      authenticateUser db p =
        (false, LogLevel.warning, "User failed to authenticate.")) ∧
    ((false, LogLevel.error, "No stored password hash found.") ≠
      ((false, LogLevel.warning, "User failed to authenticate.") :
        Bool × LogLevel × String)) := by
  refine ⟨?_, ?_, by simp⟩
  · intro h
    rw [authenticateUser, h]
  · intro storedHash hsh hv
    rw [authenticateUser, hsh]
    dsimp only
    simp [hv]

theorem C6_missing_vs_mismatch_witness :
    authenticateUser initializeDatabase "pw" =
      (false, LogLevel.error, "No stored password hash found.") ∧
    authenticateUser ⟨["x"], []⟩ "pw" =
      (false, LogLevel.warning, "User failed to authenticate.") :=
  ⟨(C6_missing_vs_mismatch initializeDatabase "pw").1 rfl,
   (C6_missing_vs_mismatch ⟨["x"], []⟩ "pw").2.1 (strEncode "x") rfl (by decide)⟩

/-- C7: the claim that a second `storePasswordHash` is rejected fails on
the code: the `users` table carries no uniqueness constraint, so the
second insert is accepted (returns `True`) and a second row is stored;
only `getStoredPasswordHash`'s `LIMIT 1` still returns the original
hash. -/
theorem C7_second_store_accepted :
    storePasswordHash initializeDatabase (strEncode "hashA") =
      (true, ⟨["hashA"], []⟩) ∧
    storePasswordHash ⟨["hashA"], []⟩ (strEncode "hashB") =
      (true, ⟨["hashA", "hashB"], []⟩) ∧
    getStoredPasswordHash ⟨["hashA", "hashB"], []⟩ = some (strEncode "hashA") := by
  refine ⟨?_, ?_, ?_⟩ <;> rfl

/-- C8: two `hashPassword` calls on the same password whose internally
generated bcrypt salts differ produce different hash encodings, and
`verifyPassword` accepts the password against both. -/
theorem C8_hash_twice_differs (p : String) (rng1 rng2 : RandState)
    (hne : (gensalt rng1).1 ≠ (gensalt rng2).1) :
    (hashPassword p rng1).1 ≠ (hashPassword p rng2).1 ∧
    verifyPassword (hashPassword p rng1).1 p = true ∧
    verifyPassword (hashPassword p rng2).1 p = true := by
  refine ⟨?_, verifyPassword_hashPassword_self p rng1,
    verifyPassword_hashPassword_self p rng2⟩
  exact bcryptHashpw_salt_injective (strEncode_isBytes p)
    (osUrandom_isBytes 16 rng1) (osUrandom_isBytes 16 rng2) hne

theorem C8_hash_twice_differs_witness :
    (hashPassword "pw" ⟨fun _ => 0, 0⟩).1 ≠ (hashPassword "pw" ⟨fun _ => 1, 0⟩).1 ∧
    verifyPassword (hashPassword "pw" ⟨fun _ => 0, 0⟩).1 "pw" = true ∧
    verifyPassword (hashPassword "pw" ⟨fun _ => 1, 0⟩).1 "pw" = true :=
  C8_hash_twice_differs "pw" ⟨fun _ => 0, 0⟩ ⟨fun _ => 1, 0⟩ (by decide)

/-- C9: label uniqueness at the storage layer: `addApiKey` under an
existing label returns `False` and leaves the records unchanged; under a
fresh label it returns `True` and appends exactly that one record. -/
theorem C9_label_uniqueness (db : Database) (label iv ciphertext : String) :
    ((∃ row ∈ db.apiKeys, row.1 = label) →
      addApiKey db label iv ciphertext = (false, db)) ∧
    ((¬ ∃ row ∈ db.apiKeys, row.1 = label) →
      addApiKey db label iv ciphertext =
        (true, ⟨db.users, db.apiKeys ++ [(label, iv, ciphertext)]⟩)) := by
  have hiff : (db.apiKeys.any (fun row => row.1 == label)) = true ↔
      ∃ row ∈ db.apiKeys, row.1 = label := by
    simp [List.any_eq_true]
  constructor
  · intro h
    rw [addApiKey, if_pos (hiff.mpr h)]
  · intro h
    rw [addApiKey, if_neg (fun hh => h (hiff.mp hh))]

theorem C9_label_uniqueness_witness :
    addApiKey ⟨[], [("openai", "i0", "c0")]⟩ "openai" "i1" "c1" =
      (false, ⟨[], [("openai", "i0", "c0")]⟩) ∧
    addApiKey initializeDatabase "openai" "i0" "c0" =
      (true, ⟨[], [("openai", "i0", "c0")]⟩) :=
  ⟨(C9_label_uniqueness ⟨[], [("openai", "i0", "c0")]⟩ "openai" "i1" "c1").1
     (by simp),
   (C9_label_uniqueness initializeDatabase "openai" "i0" "c0").2 (by simp [initializeDatabase])⟩

/-- C10: `decryptApiKey` is total at its public interface: every exception
of the body (invalid key length, malformed base64, too-short or tampered
ciphertext, undecodable plaintext) is caught, so it always returns either
a decrypted string or `None` — in particular `None` for an invalid key
length and for undecodable base64 input. -/
theorem C10_decrypt_total (iv ciphertext : String) (key : List Nat) :
    (decryptApiKey iv ciphertext key = none ∨
      ∃ s, decryptApiKey iv ciphertext key = some s) ∧
    (¬ (key.length = 16 ∨ key.length = 24 ∨ key.length = 32) →
      decryptApiKey iv ciphertext key = none) ∧
    (b64decode iv = none → decryptApiKey iv ciphertext key = none) := by
  refine ⟨?_, ?_, ?_⟩
  · rw [decryptApiKey]
    cases decryptApiKeyRun iv ciphertext key with
    | ok s => exact Or.inr ⟨s, rfl⟩
    | error e => exact Or.inl rfl
  · intro hlen
    rw [decryptApiKey, decryptApiKeyRun, aesgcmNew, if_neg hlen]
  · intro hiv
    rw [decryptApiKey, decryptApiKeyRun]
    by_cases hlen : key.length = 16 ∨ key.length = 24 ∨ key.length = 32
    · rw [aesgcmNew, if_pos hlen]
      dsimp only
      rw [hiv]
    · rw [aesgcmNew, if_neg hlen]

theorem C10_decrypt_total_witness :
    decryptApiKey "AAAA" "AAAA" [] = none ∧
    decryptApiKey "!!!" "AAAA" (List.range 32) = none :=
  ⟨(C10_decrypt_total "AAAA" "AAAA" []).2.1 (by decide),
   (C10_decrypt_total "!!!" "AAAA" (List.range 32)).2.2 (by decide)⟩

end RabbitHole
